import Mathlib

/-!
Verification of the classification-and-scoring pipeline of `LLM-SecDB/5_run.py`.

Strings are modelled as `List Char`.  Python `str.lower()` is modelled on the
ASCII alphabet (`pyLower`), which is exact for every string the pipeline
manipulates.  Python sets are modelled as duplicate-free lists (`pySet`),
`Counter` objects as bags (`List Str`) compared by `List.count`.  The float
backoff arithmetic (`2.0`, `*= 1.7`) is modelled over `ℚ`.
-/

set_option maxHeartbeats 1000000

namespace LLMSecDB

abbrev Str := List Char

def lit (s : String) : Str := s.data

/-- Whitespace characters stripped by Python `str.strip()` and matched by `\s`
(restricted to ASCII, which is all the pipeline produces). -/
def isSpace (c : Char) : Bool :=
  c == ' ' || c == '\t' || c == '\n' || c == '\r' || c == '\x0b' || c == '\x0c'

/-- Upper-to-lower case table for Python `str.lower()` on ASCII. -/
def lowerTable : List (Char × Char) :=
  [('A', 'a'), ('B', 'b'), ('C', 'c'), ('D', 'd'), ('E', 'e'), ('F', 'f'),
   ('G', 'g'), ('H', 'h'), ('I', 'i'), ('J', 'j'), ('K', 'k'), ('L', 'l'),
   ('M', 'm'), ('N', 'n'), ('O', 'o'), ('P', 'p'), ('Q', 'q'), ('R', 'r'),
   ('S', 's'), ('T', 't'), ('U', 'u'), ('V', 'v'), ('W', 'w'), ('X', 'x'),
   ('Y', 'y'), ('Z', 'z')]

/-- Python `str.lower()`, character-wise (ASCII). -/
def pyLower (c : Char) : Char :=
  ((lowerTable.find? (fun p => p.1 == c)).map Prod.snd).getD c

def lower (s : Str) : Str := s.map pyLower

/-- Python `str.strip()` (strip whitespace from both ends). -/
def strip (s : Str) : Str :=
  ((s.dropWhile isSpace).reverse.dropWhile isSpace).reverse

/-- Python `str.split(",")`: always returns at least one (possibly empty) part. -/
def splitComma : Str → List Str
  | [] => [[]]
  | c :: rest =>
    match splitComma rest with
    | [] => [[c]]
    | g :: gs => if c = ',' then [] :: g :: gs else (c :: g) :: gs

/-- `ALLOWED_LABELS` from the source. -/
def ALLOWED_LABELS : List Str :=
  [lit "credentials", lit "network_identifiers", lit "pii",
   lit "conflict", lit "peerreview", lit "none"]

/-- The sentinel label `"none"`. -/
def noneL : Str := lit "none"

/-- The real taxonomy labels: `ALLOWED_LABELS` without the sentinel. -/
def taxonomy : List Str :=
  [lit "credentials", lit "network_identifiers", lit "pii",
   lit "conflict", lit "peerreview"]

def niPat : Str := lit "network_identifiers:"

def niRep : Str := lit "network_identifiers"

/-- Left-to-right non-overlapping substring replacement, with enough fuel. -/
def replaceNIAux : Nat → Str → Str
  | 0, s => s
  | fuel + 1, s =>
    match s with
    | [] => []
    | c :: rest =>
      if niPat.isPrefixOf (c :: rest) then
        niRep ++ replaceNIAux fuel (rest.drop (niPat.length - 1))
      else c :: replaceNIAux fuel rest

/-- Python `p.replace("network_identifiers:", "network_identifiers")`. -/
def replaceNI (s : Str) : Str := replaceNIAux s.length s

/-- The per-token normalization shared by both parsers: the
`network_identifiers:` prefix repair followed by `re.sub(r"[^a-z_]", "", p)`. -/
def normalizeToken (p : Str) : Str :=
  (replaceNI p).filter (fun c => (decide ('a' ≤ c) && decide (c ≤ 'z')) || c == '_')

/-- The token list both parsers iterate: split on commas, then
`p.strip().lower()` for each part. -/
def tokensOf (content : Str) : List Str :=
  (splitComma content).map (fun p => lower (strip p))

/-- Python-style order-preserving de-duplication (the `seen`/`out` loop). -/
def pyDedup (seen : List Str) : List Str → List Str
  | [] => []
  | x :: xs => if x ∈ seen then pyDedup seen xs else x :: pyDedup (x :: seen) xs

/-- The token loop of `parse_labels_from_xml`: `none` produces the whole-result
short circuit (modelled by `Option.none`), otherwise taxonomy members are
collected in order. -/
def respCollect : List Str → Option (List Str)
  | [] => some []
  | p :: rest =>
    let q := normalizeToken p
    if q = [] then respCollect rest
    else if q = noneL then none
    else if q ∈ ALLOWED_LABELS ∧ q ≠ noneL then (respCollect rest).map (fun l => q :: l)
    else respCollect rest

/-- Steps 3-5 of the Response Normalizer, acting on inner content (the body of
`parse_labels_from_xml` after the wrapper slice). -/
def parse_inner (content : Str) : List Str :=
  if content = [] then []
  else
    match respCollect (tokensOf content) with
    | none => []
    | some labels => pyDedup [] labels

/-- Python slice `u[5:-6]`. -/
def pySlice (u : Str) : Str := (u.drop 5).take (u.length - 11)

/-- `parse_labels_from_xml` from the source. -/
def parse_labels_from_xml (t : Str) : List Str :=
  parse_inner (strip (pySlice (strip t)))

/-- A JSON field value as far as the pipeline inspects it. -/
inductive PyVal where
  | missing
  | nonStr
  | str (s : Str)
deriving DecidableEq

/-- An input record: the `comments` and `classification` fields. -/
structure Rec where
  comments : PyVal
  classification : PyVal
deriving DecidableEq

/-- The token loop of `parse_ground_truth_labels`: no sentinel short circuit. -/
def gtCollect : List Str → List Str
  | [] => []
  | p :: rest =>
    let q := normalizeToken p
    if q ∈ ALLOWED_LABELS ∧ q ≠ noneL then q :: gtCollect rest else gtCollect rest

/-- `parse_ground_truth_labels` from the source: `rec.get("classification","")`
with a missing field defaulting to the empty string. -/
def parse_ground_truth_labels (rec : Rec) : List Str :=
  match rec.classification with
  | .str raw => if strip raw = [] then [] else pyDedup [] (gtCollect (tokensOf raw))
  | .missing => []
  | .nonStr => []

/-- Case-insensitive character comparison, as done by `re.IGNORECASE`. -/
def ciEq (a b : Char) : Bool := pyLower a == pyLower b

/-- Case-insensitive "pattern is a prefix here" test. -/
def ciPref : Str → Str → Bool
  | [], _ => true
  | _ :: _, [] => false
  | p :: ps, s :: ss => ciEq p s && ciPref ps ss

/-- Index of the first case-insensitive occurrence of `pat`. -/
def findCI (pat : Str) : Str → Option Nat
  | [] => if ciPref pat [] then some 0 else none
  | c :: rest =>
    if ciPref pat (c :: rest) then some 0
    else (findCI pat rest).map (fun n => n + 1)

def openL : Str := lit "<xml>"

def closeL : Str := lit "</xml>"

/-- `extract_xml_answer`: the leftmost, shortest `<xml>.*?</xml>` match
(`re.IGNORECASE | re.DOTALL`), stripped; `None` when absent or input falsy. -/
def extract_xml_answer (s : Str) : Option Str :=
  if s = [] then none
  else
    match findCI openL s with
    | none => none
    | some i =>
      match findCI closeL ((s.drop i).drop openL.length) with
      | none => none
      | some j => some (strip ((s.drop i).take (openL.length + j + closeL.length)))

def backtickChar : Char := Char.ofNat 96

/-- Python `re.sub(r"^`+|`+$", "", s)` (written with `Char.ofNat` because the
repository's salvage step strips code-fence backticks). -/
def stripBackticks (s : Str) : Str :=
  ((s.dropWhile (fun c => c == backtickChar)).reverse.dropWhile
    (fun c => c == backtickChar)).reverse

/-- Characters kept by the salvage `re.sub(r"[^a-zA-Z0-9_,\-\s]", "", inner)`. -/
def salvageKeep (c : Char) : Bool :=
  (decide ('a' ≤ c) && decide (c ≤ 'z')) || (decide ('A' ≤ c) && decide (c ≤ 'Z')) ||
  (decide ('0' ≤ c) && decide (c ≤ '9')) || c == '_' || c == ',' || c == '-' || isSpace c

/-- `sanitize_xml` from the source. -/
def sanitize_xml : Option Str → Option Str
  | none => none
  | some x =>
    if x = [] then none
    else
      let t := strip x
      if openL.isPrefixOf (lower t) && closeL.isSuffixOf (lower t) then some t
      else
        let inner := strip ((strip (stripBackticks t)).filter salvageKeep)
        if inner = [] then none else some (openL ++ inner ++ closeL)

/-- Python `a or b` on an optional string (empty string is falsy). -/
def pyOr (a b : Option Str) : Option Str :=
  match a with
  | some s => if s = [] then b else some s
  | none => b

/-- The answer-recovery chain of `ask_llm`'s success branch:
`sanitize_xml(extract_xml_answer(content)) or sanitize_xml(content)`. -/
def contentToXml (content : Str) : Option Str :=
  pyOr (sanitize_xml (extract_xml_answer content)) (sanitize_xml (some content))

/-- The full normalization of one raw response into a predicted label list
(`parse_labels_from_xml(xml) if xml else []`). -/
def normalizeLabels (content : Str) : List Str :=
  match contentToXml content with
  | some xml => parse_labels_from_xml xml
  | none => []

/-- One attempt's outcome at the remote boundary, by exception class. -/
inductive Outcome where
  | success (content : Str)
  | rateLimit (msg : Str)
  | internalServer (msg : Str)
  | apiError (msg : Str)
  | badRequest (msg : Str)
  | unexpected (msg : Str)
deriving DecidableEq

/-- The error string `f"{type(e).__name__}: {e}"` (resp. `f"UnexpectedError: {e}"`). -/
def fmtErr : Outcome → Str
  | .rateLimit m => lit "RateLimitError: " ++ m
  | .internalServer m => lit "InternalServerError: " ++ m
  | .apiError m => lit "APIError: " ++ m
  | .badRequest m => lit "BadRequestError: " ++ m
  | .unexpected m => lit "UnexpectedError: " ++ m
  | .success _ => []

def isRetryable : Outcome → Bool
  | .rateLimit _ => true
  | .internalServer _ => true
  | .unexpected _ => true
  | _ => false

def isFatal : Outcome → Bool
  | .apiError _ => true
  | .badRequest _ => true
  | _ => false

def MAX_RETRIES : Nat := 4

def SLEEP_BACKOFF : ℚ := 2

def BACKOFF_FACTOR : ℚ := 17 / 10

def errNoValid : Str := lit "No valid <xml>...</xml> returned."

/-- Observable trace of one `ask_llm` run: returned pair, the sleeps performed,
and the number of attempts issued. -/
structure LLMTrace where
  answer : Option Str
  err : Option Str
  sleeps : List ℚ
  attempts : Nat
deriving DecidableEq

/-- The retry loop of `ask_llm`; `fuel` counts the remaining iterations of
`for attempt in range(1, MAX_RETRIES + 1)`. -/
def ask_llm_go (outcomes : Nat → Outcome) : Nat → Nat → ℚ → List ℚ → LLMTrace
  | 0, attempt, _, sleeps => ⟨none, none, sleeps, attempt - 1⟩
  | fuel + 1, attempt, backoff, sleeps =>
    match outcomes attempt with
    | .success content =>
      match contentToXml content with
      | none => ⟨none, some errNoValid, sleeps, attempt⟩
      | some xml => ⟨some xml, none, sleeps, attempt⟩
    | .rateLimit m =>
      if attempt = MAX_RETRIES then ⟨none, some (fmtErr (.rateLimit m)), sleeps, attempt⟩
      else ask_llm_go outcomes fuel (attempt + 1) (backoff * BACKOFF_FACTOR) (sleeps ++ [backoff])
    | .internalServer m =>
      if attempt = MAX_RETRIES then ⟨none, some (fmtErr (.internalServer m)), sleeps, attempt⟩
      else ask_llm_go outcomes fuel (attempt + 1) (backoff * BACKOFF_FACTOR) (sleeps ++ [backoff])
    | .apiError m => ⟨none, some (fmtErr (.apiError m)), sleeps, attempt⟩
    | .badRequest m => ⟨none, some (fmtErr (.badRequest m)), sleeps, attempt⟩
    | .unexpected m =>
      if attempt = MAX_RETRIES then ⟨none, some (fmtErr (.unexpected m)), sleeps, attempt⟩
      else ask_llm_go outcomes fuel (attempt + 1) (backoff * BACKOFF_FACTOR) (sleeps ++ [backoff])

/-- `ask_llm` from the source, driven by an oracle of per-attempt outcomes. -/
def ask_llm (outcomes : Nat → Outcome) : LLMTrace :=
  ask_llm_go outcomes MAX_RETRIES 1 SLEEP_BACKOFF []

/-- Stored per-record result dict. -/
structure Stored where
  idx : Nat
  xml : Str
  pred_labels : List Str
  err : Option Str
  comment_length : Nat
deriving DecidableEq

def xmlNoneL : Str := lit "<xml>none</xml>"

def aposChar : Char := Char.ofNat 39

/-- The note recorded for an absent or blank comment. -/
def missingMsg : Str :=
  lit "Missing or empty " ++ [aposChar] ++ lit "comments" ++ [aposChar] ++ lit "."

/-- `classify_record` from the source; additionally reports how many remote
attempts were issued (0 when short-circuiting). -/
def classify_record (outcomes : Nat → Outcome) (idx : Nat) (comments : PyVal) :
    Stored × Nat :=
  match comments with
  | .str s =>
    if strip s = [] then (⟨idx, xmlNoneL, [], some missingMsg, s.length⟩, 0)
    else
      let t := ask_llm outcomes
      match t.answer with
      | some xml =>
        (⟨idx, xml, pyDedup [] (parse_labels_from_xml xml), t.err, s.length⟩, t.attempts)
      | none => (⟨idx, [], [], t.err, s.length⟩, t.attempts)
  | .missing => (⟨idx, xmlNoneL, [], some missingMsg, 0⟩, 0)
  | .nonStr => (⟨idx, xmlNoneL, [], some missingMsg, 0⟩, 0)

/-- Python set construction from a list. -/
def pySet (l : List Str) : List Str := pyDedup [] l

/-- Python set equality. -/
def setEq (a b : List Str) : Bool :=
  a.all (fun x => decide (x ∈ b)) && b.all (fun x => decide (x ∈ a))

/-- Python set intersection `a & b` (on dedup-list representatives). -/
def setInter (a b : List Str) : List Str := a.filter (fun x => decide (x ∈ b))

/-- Python set difference `a - b`. -/
def setDiff (a b : List Str) : List Str := a.filter (fun x => decide (x ∉ b))

def COUNT_NONE_AS_HIT : Bool := true

/-- The hit condition `bool(inter) or (COUNT_NONE_AS_HIT and not pred_set and not gt_set)`. -/
def hitNow (pred_set gt_set : List Str) : Bool :=
  !(setInter pred_set gt_set).isEmpty ||
    (COUNT_NONE_AS_HIT && pred_set.isEmpty && gt_set.isEmpty)

/-- Live running metrics, updated under the lock as completions arrive. -/
structure SemState where
  sem_num_done : Nat
  sem_num_exact : Nat
  sem_num_hit_incl_none : Nat
  sem_pred_label_freq : List Str
deriving DecidableEq

/-- The live metrics update performed in the lock block for one completion. -/
def liveUpdate (st : SemState) (rec : Rec) (r : Stored) : SemState :=
  let pred_set := pySet r.pred_labels
  let gt_set := pySet (parse_ground_truth_labels rec)
  { sem_num_done := st.sem_num_done + 1
    sem_num_exact := st.sem_num_exact + (if setEq pred_set gt_set then 1 else 0)
    sem_num_hit_incl_none :=
      st.sem_num_hit_incl_none + (if hitNow pred_set gt_set then 1 else 0)
    sem_pred_label_freq := st.sem_pred_label_freq ++ pred_set }

def livePassFrom (st : SemState) (l : List (Rec × Stored)) : SemState :=
  l.foldl (fun st p => liveUpdate st p.1 p.2) st

/-- The live pass over a stream of completed (record, result) pairs. -/
def livePass (l : List (Rec × Stored)) : SemState := livePassFrom ⟨0, 0, 0, []⟩ l

/-- Final aggregation state (Phase 2 counters and bags). -/
structure FinalState where
  num_done : Nat
  num_exact : Nat
  num_hit_incl_none : Nat
  num_hit_nonempty : Nat
  num_any_pred : Nat
  num_any_gt : Nat
  num_false_pos_records : Nat
  num_false_neg_records : Nat
  pred_label_freq : List Str
  gt_label_freq : List Str
  tp_label : List Str
  fp_label : List Str
  fn_label : List Str
deriving DecidableEq

/-- One iteration of the final sequential aggregation loop. -/
def finalUpdate (st : FinalState) (rec : Rec) (r : Stored) : FinalState :=
  let pred_set := pySet r.pred_labels
  let gt_set := pySet (parse_ground_truth_labels rec)
  let inter := setInter pred_set gt_set
  { num_done := st.num_done + 1
    num_exact := st.num_exact + (if setEq pred_set gt_set then 1 else 0)
    num_hit_incl_none := st.num_hit_incl_none + (if hitNow pred_set gt_set then 1 else 0)
    num_hit_nonempty := st.num_hit_nonempty + (if inter.isEmpty then 0 else 1)
    num_any_pred := st.num_any_pred + (if pred_set.isEmpty then 0 else 1)
    num_any_gt := st.num_any_gt + (if gt_set.isEmpty then 0 else 1)
    num_false_pos_records :=
      st.num_false_pos_records + (if !pred_set.isEmpty && gt_set.isEmpty then 1 else 0)
    num_false_neg_records :=
      st.num_false_neg_records + (if !gt_set.isEmpty && pred_set.isEmpty then 1 else 0)
    pred_label_freq := st.pred_label_freq ++ pred_set
    gt_label_freq := st.gt_label_freq ++ gt_set
    tp_label := st.tp_label ++ inter
    fp_label := st.fp_label ++ setDiff pred_set gt_set
    fn_label := st.fn_label ++ setDiff gt_set pred_set }

def finalPassFrom (st : FinalState) (l : List (Rec × Stored)) : FinalState :=
  l.foldl (fun st p => finalUpdate st p.1 p.2) st

/-- The final deterministic pass, iterating results in record order. -/
def finalPass (l : List (Rec × Stored)) : FinalState :=
  finalPassFrom ⟨0, 0, 0, 0, 0, 0, 0, 0, [], [], [], [], []⟩ l

def workerErrPre : Str := lit "WorkerError: "

/-- The replacement dict built when `fut.result()` raises. -/
def workerFallback (i : Nat) (msg : Str) : Stored :=
  ⟨i, xmlNoneL, [], some (workerErrPre ++ msg), 0⟩

def defaultRec : Rec := ⟨.missing, .missing⟩

/-- What the dispatcher stores for index `i`: the worker's result, or the
fallback dict if the worker raised (`faults i = some msg`). -/
def runWorker (oracle : Nat → Nat → Outcome) (faults : Nat → Option Str)
    (records : List Rec) (i : Nat) : Stored :=
  match faults i with
  | some m => workerFallback i m
  | none => (classify_record (oracle i) i ((records.getD i defaultRec).comments)).1

/-- The dispatch loop: `results = [None] * len(records)` then
`results[i] = r` for each completion, in completion order `order`.  The worker
pool size `W` bounds in-flight calls but does not affect the stored results. -/
def dispatch (W : Nat) (oracle : Nat → Nat → Outcome) (faults : Nat → Option Str)
    (records : List Rec) (order : List Nat) : List (Option Stored) :=
  let _ := W
  order.foldl (fun results i => results.set i (some (runWorker oracle faults records i)))
    (List.replicate records.length none)

/-- Whether some comma token of `content` normalizes to the sentinel. -/
def hasSentinel (content : Str) : Bool :=
  (tokensOf content).any (fun p => normalizeToken p = noneL)

/-! ### Character-level lemmas -/

theorem pyLower_spec (c : Char) :
    pyLower c = c ∨ ∃ pr ∈ lowerTable, c = pr.1 ∧ pyLower c = pr.2 := by
  cases hf : List.find? (fun p => p.1 == c) lowerTable with
  | none => left; simp [pyLower, hf]
  | some pr =>
    right
    have h1 := List.find?_some hf
    have h2 := List.mem_of_find?_eq_some hf
    exact ⟨pr, h2, (beq_iff_eq.mp h1).symm, by simp [pyLower, hf]⟩

theorem pyLower_comma_iff (c : Char) : pyLower c = ',' ↔ c = ',' := by
  rcases pyLower_spec c with h | ⟨pr, hm, rfl, h2⟩
  · rw [h]
  · rw [h2]; fin_cases hm <;> decide

theorem isSpace_pyLower (c : Char) : isSpace (pyLower c) = isSpace c := by
  rcases pyLower_spec c with h | ⟨pr, hm, rfl, h2⟩
  · rw [h]
  · rw [h2]; fin_cases hm <;> decide

/-! ### `pyDedup` and `pySet` lemmas -/

theorem mem_pyDedup : ∀ (l seen : List Str) (a : Str),
    a ∈ pyDedup seen l ↔ a ∈ l ∧ a ∉ seen
  | [], seen, a => by simp [pyDedup]
  | x :: xs, seen, a => by
    by_cases hx : x ∈ seen
    · rw [pyDedup, if_pos hx, mem_pyDedup xs seen a]
      simp only [List.mem_cons]
      by_cases hax : a = x
      · subst hax; tauto
      · tauto
    · rw [pyDedup, if_neg hx]
      simp only [List.mem_cons, mem_pyDedup xs (x :: seen) a]
      by_cases hax : a = x
      · subst hax; tauto
      · tauto

theorem pyDedup_nodup : ∀ (l seen : List Str), (pyDedup seen l).Nodup
  | [], _ => List.nodup_nil
  | x :: xs, seen => by
    by_cases hx : x ∈ seen
    · rw [pyDedup, if_pos hx]; exact pyDedup_nodup xs seen
    · rw [pyDedup, if_neg hx]
      refine List.nodup_cons.mpr ⟨fun hmem => ?_, pyDedup_nodup xs (x :: seen)⟩
      exact ((mem_pyDedup xs (x :: seen) x).mp hmem).2 (List.mem_cons_self x seen)

theorem mem_pySet (l : List Str) (a : Str) : a ∈ pySet l ↔ a ∈ l := by
  simp [pySet, mem_pyDedup]

/-- Occurrence count of a label in a bag of labels. -/
def countLabel (a : Str) (bag : List Str) : Nat :=
  bag.countP (fun x => decide (x = a))

theorem countLabel_append (a : Str) (l m : List Str) :
    countLabel a (l ++ m) = countLabel a l + countLabel a m :=
  List.countP_append _ _ _

theorem countLabel_nodup (a : Str) : ∀ (l : List Str), l.Nodup →
    countLabel a l = if a ∈ l then 1 else 0
  | [], _ => by simp [countLabel]
  | x :: xs, h => by
    obtain ⟨hx, hxs⟩ := List.nodup_cons.mp h
    rw [countLabel, List.countP_cons]
    rw [show List.countP (fun x => decide (x = a)) xs = countLabel a xs from rfl]
    rw [countLabel_nodup a xs hxs]
    by_cases hax : a = x
    · subst hax
      simp [hx]
    · simp [hax, Ne.symm hax, List.mem_cons]

/-! ### `strip` lemmas -/

theorem dropWhile_head_false (p : Char → Bool) :
    ∀ (l : Str) (a : Char) (t : Str), l.dropWhile p = a :: t → p a = false
  | [], a, t, h => by simp at h
  | x :: xs, a, t, h => by
    rw [List.dropWhile_cons] at h
    by_cases hx : p x = true
    · rw [if_pos hx] at h
      exact dropWhile_head_false p xs a t h
    · rw [if_neg hx] at h
      injection h with h1 _
      subst h1
      simpa using hx

theorem strip_eq_nil_of_space (p : Str) (h : ∀ c ∈ p, isSpace c = true) :
    strip p = [] := by
  have h1 : p.dropWhile isSpace = [] := List.dropWhile_eq_nil_iff.mpr (fun x hx => h x hx)
  simp [strip, h1]

theorem space_of_strip_eq_nil (p : Str) (h : strip p = []) :
    ∀ c ∈ p, isSpace c = true := by
  unfold strip at h
  rw [List.reverse_eq_nil_iff, List.dropWhile_eq_nil_iff] at h
  cases hd : p.dropWhile isSpace with
  | nil => exact List.dropWhile_eq_nil_iff.mp hd
  | cons y ys =>
    exfalso
    have hy : isSpace y = false := dropWhile_head_false isSpace p y ys hd
    have hy2 : isSpace y = true := h y (by simp [hd])
    rw [hy] at hy2
    exact Bool.false_ne_true hy2

theorem strip_of_ends (a z : Char) (mid : Str) (ha : isSpace a = false)
    (hz : isSpace z = false) :
    strip (a :: (mid ++ [z])) = a :: (mid ++ [z]) := by
  unfold strip
  rw [List.dropWhile_cons, ha]
  simp only [Bool.false_eq_true, if_false]
  rw [show (a :: (mid ++ [z])).reverse = z :: (mid.reverse ++ [a]) by simp]
  rw [List.dropWhile_cons, hz]
  simp

theorem strip_prefix_dropWhile (s : Str) : strip s <+: s.dropWhile isSpace := by
  unfold strip
  have h1 : (s.dropWhile isSpace).reverse.dropWhile isSpace <:+
      (s.dropWhile isSpace).reverse := List.dropWhile_suffix _
  have h2 := List.reverse_prefix.mpr h1
  rwa [List.reverse_reverse] at h2

theorem strip_head_not_space (s : Str) (a : Char) (t : Str) (h : strip s = a :: t) :
    isSpace a = false := by
  obtain ⟨r, hr⟩ := strip_prefix_dropWhile s
  rw [h] at hr
  exact dropWhile_head_false isSpace s a (t ++ r) (by rw [← hr]; simp)

theorem strip_last_shape (s : Str) (h : strip s ≠ []) :
    ∃ v b, strip s = v ++ [b] ∧ isSpace b = false := by
  cases hv : (s.dropWhile isSpace).reverse.dropWhile isSpace with
  | nil =>
    exfalso
    apply h
    unfold strip
    rw [hv]
    rfl
  | cons b v' =>
    refine ⟨v'.reverse, b, ?_, ?_⟩
    · unfold strip
      rw [hv]
      simp
    · exact dropWhile_head_false isSpace (s.dropWhile isSpace).reverse b v' hv

theorem strip_idem (s : Str) : strip (strip s) = strip s := by
  cases h : strip s with
  | nil => rfl
  | cons a t =>
    have ha : isSpace a = false := strip_head_not_space s a t h
    rcases t.eq_nil_or_concat with rfl | ⟨mid, z, rfl⟩
    · simp [strip, List.dropWhile_cons, ha]
    · obtain ⟨v, b, hvb, hb⟩ := strip_last_shape s (by rw [h]; simp)
      rw [List.concat_eq_append] at h ⊢
      have hbz : z = b := by
        have h2 := congrArg List.getLast? (hvb.symm.trans h)
        rw [← List.cons_append, List.getLast?_concat, List.getLast?_concat] at h2
        exact (Option.some_inj.mp h2).symm
      subst hbz
      exact strip_of_ends a z mid ha hb

/-! ### Token-level lemmas -/

theorem mem_taxonomy_iff (q : Str) : q ∈ taxonomy ↔ q ∈ ALLOWED_LABELS ∧ q ≠ noneL := by
  constructor
  · intro h
    fin_cases h <;> exact ⟨by decide, by decide⟩
  · rintro ⟨h1, h2⟩
    fin_cases h1 <;> first | decide | exact absurd (by decide) h2

theorem exists_sentinel_cons (p : Str) (rest : List Str) :
    (∃ x ∈ p :: rest, normalizeToken x = noneL) ↔
      (normalizeToken p = noneL ∨ ∃ x ∈ rest, normalizeToken x = noneL) := by
  constructor
  · rintro ⟨x, hx, hn⟩
    rcases List.mem_cons.mp hx with rfl | hx
    · exact Or.inl hn
    · exact Or.inr ⟨x, hx, hn⟩
  · rintro (h | ⟨x, hx, hn⟩)
    · exact ⟨p, List.mem_cons_self p rest, h⟩
    · exact ⟨x, List.mem_cons_of_mem _ hx, hn⟩

theorem respCollect_eq_none_iff : ∀ ts : List Str,
    respCollect ts = none ↔ ∃ p ∈ ts, normalizeToken p = noneL
  | [] => by simp [respCollect]
  | p :: rest => by
    rw [exists_sentinel_cons p rest]
    simp only [respCollect]
    by_cases h1 : normalizeToken p = []
    · rw [if_pos h1, respCollect_eq_none_iff rest]
      have : normalizeToken p ≠ noneL := by rw [h1]; decide
      tauto
    · rw [if_neg h1]
      by_cases h2 : normalizeToken p = noneL
      · rw [if_pos h2]
        tauto
      · rw [if_neg h2]
        by_cases h3 : normalizeToken p ∈ ALLOWED_LABELS ∧ normalizeToken p ≠ noneL
        · rw [if_pos h3, Option.map_eq_none', respCollect_eq_none_iff rest]
          tauto
        · rw [if_neg h3, respCollect_eq_none_iff rest]
          tauto

theorem respCollect_no_sentinel : ∀ ts : List Str,
    (∀ x ∈ ts, normalizeToken x ≠ noneL) →
    respCollect ts = some ((ts.map normalizeToken).filter
      (fun q => decide (q ∈ ALLOWED_LABELS ∧ q ≠ noneL)))
  | [], _ => by simp [respCollect]
  | p :: rest, h => by
    have hp : normalizeToken p ≠ noneL := h p (List.mem_cons_self p rest)
    have hrest := respCollect_no_sentinel rest (fun x hx => h x (List.mem_cons_of_mem _ hx))
    simp only [respCollect, List.map_cons, List.filter_cons]
    by_cases h1 : normalizeToken p = []
    · rw [if_pos h1, hrest]
      have hd : decide (normalizeToken p ∈ ALLOWED_LABELS ∧ normalizeToken p ≠ noneL)
          = false := by rw [h1]; decide
      rw [hd]
      simp
    · rw [if_neg h1, if_neg hp]
      by_cases h3 : normalizeToken p ∈ ALLOWED_LABELS ∧ normalizeToken p ≠ noneL
      · rw [if_pos h3, hrest]
        have hd : decide (normalizeToken p ∈ ALLOWED_LABELS ∧ normalizeToken p ≠ noneL)
            = true := decide_eq_true h3
        rw [hd]
        simp
      · rw [if_neg h3, hrest]
        have hd : decide (normalizeToken p ∈ ALLOWED_LABELS ∧ normalizeToken p ≠ noneL)
            = false := decide_eq_false h3
        rw [hd]
        simp

theorem gtCollect_eq : ∀ ts : List Str,
    gtCollect ts = (ts.map normalizeToken).filter
      (fun q => decide (q ∈ ALLOWED_LABELS ∧ q ≠ noneL))
  | [] => rfl
  | p :: rest => by
    simp only [gtCollect, List.map_cons, List.filter_cons, gtCollect_eq rest]
    by_cases h : normalizeToken p ∈ ALLOWED_LABELS ∧ normalizeToken p ≠ noneL
    · rw [if_pos h, decide_eq_true h]
      simp
    · rw [if_neg h, decide_eq_false h]
      simp

theorem splitComma_ne_nil : ∀ s : Str, splitComma s ≠ []
  | [] => by simp [splitComma]
  | c :: rest => by
    simp only [splitComma]
    cases h : splitComma rest with
    | nil => simp
    | cons g gs => by_cases hc : c = ',' <;> simp [hc]

theorem mem_splitComma_chars : ∀ (s part : Str), part ∈ splitComma s → ∀ ch ∈ part, ch ∈ s
  | [], part, hp, ch, hch => by
    simp only [splitComma, List.mem_singleton] at hp
    subst hp
    simp at hch
  | c :: rest, part, hp, ch, hch => by
    simp only [splitComma] at hp
    cases h : splitComma rest with
    | nil => exact absurd h (splitComma_ne_nil rest)
    | cons g gs =>
      rw [h] at hp
      replace hp : part ∈ (if c = ',' then [] :: g :: gs else (c :: g) :: gs) := hp
      by_cases hc : c = ','
      · rw [if_pos hc] at hp
        rcases List.mem_cons.mp hp with rfl | hp
        · simp at hch
        · exact List.mem_cons_of_mem _
            (mem_splitComma_chars rest part (h ▸ hp) ch hch)
      · rw [if_neg hc] at hp
        rcases List.mem_cons.mp hp with rfl | hp
        · rcases List.mem_cons.mp hch with rfl | hch
          · exact List.mem_cons_self _ _
          · exact List.mem_cons_of_mem _
              (mem_splitComma_chars rest g (h ▸ List.mem_cons_self g gs) ch hch)
        · exact List.mem_cons_of_mem _
            (mem_splitComma_chars rest part (h ▸ List.mem_cons_of_mem _ hp) ch hch)

theorem tokens_of_blank (s : Str) (h : strip s = []) :
    ∀ x ∈ tokensOf s, normalizeToken x = [] := by
  intro x hx
  simp only [tokensOf, List.mem_map] at hx
  obtain ⟨part, hpart, rfl⟩ := hx
  have hsp : ∀ ch ∈ part, isSpace ch = true := by
    intro ch hch
    exact space_of_strip_eq_nil s h ch (mem_splitComma_chars s part hpart ch hch)
  rw [strip_eq_nil_of_space part hsp]
  decide

theorem filter_allowed_eq_taxonomy (l : List Str) :
    l.filter (fun q => decide (q ∈ ALLOWED_LABELS ∧ q ≠ noneL)) =
      l.filter (fun q => decide (q ∈ taxonomy)) := by
  apply List.filter_congr
  intro q _
  rw [decide_eq_decide]
  exact (mem_taxonomy_iff q).symm

theorem filter_of_blank_tokens (s : Str) (h : strip s = []) :
    ((tokensOf s).map normalizeToken).filter (fun q => decide (q ∈ taxonomy)) = [] := by
  rw [List.filter_eq_nil_iff]
  intro q hq
  simp only [List.mem_map] at hq
  obtain ⟨x, hx, rfl⟩ := hq
  rw [tokens_of_blank s h x hx]
  decide

/-- Claim C2: on any answer-block inner content, if some comma token normalizes
to the sentinel then the result is the empty label set regardless of the other
tokens; otherwise the result is the taxonomy members among the normalized
tokens, de-duplicated preserving first-seen order. -/
theorem parse_inner_spec (content : Str) :
    parse_inner content =
      if hasSentinel content then []
      else pyDedup [] (((tokensOf content).map normalizeToken).filter
        (fun q => decide (q ∈ taxonomy))) := by
  by_cases hs : hasSentinel content
  · rw [if_pos hs]
    have hex : ∃ p ∈ tokensOf content, normalizeToken p = noneL := by
      simpa [hasSentinel, List.any_eq_true] using hs
    have hcne : content ≠ [] := by
      rintro rfl
      exact absurd hs (by decide)
    rw [parse_inner, if_neg hcne, (respCollect_eq_none_iff (tokensOf content)).mpr hex]
  · rw [if_neg hs]
    have hno : ∀ x ∈ tokensOf content, normalizeToken x ≠ noneL := by
      intro x hx
      simp only [hasSentinel, List.any_eq_true, decide_eq_true_eq] at hs
      exact fun hn => hs ⟨x, hx, hn⟩
    by_cases hc : content = []
    · subst hc
      decide
    · rw [parse_inner, if_neg hc, respCollect_no_sentinel (tokensOf content) hno]
      rw [filter_allowed_eq_taxonomy]

/-- Claim C5 counterexample: the Ground-Truth Normalizer does not treat the
sentinel as exclusive: on `"credentials,none"` it keeps `credentials`, while
Response Normalizer steps 3-5 yield the empty set, so the two disagree. -/
theorem gt_sentinel_counterexample :
    parse_ground_truth_labels ⟨PyVal.missing, PyVal.str (lit "credentials,none")⟩ =
        [lit "credentials"] ∧
      parse_inner (lit "credentials,none") = [] := by
  constructor
  · decide
  · decide

/-- Claim C5 (amended): the Ground-Truth Normalizer agrees with Response
Normalizer steps 3-5 on every stored taxonomy string in which no token
normalizes to the sentinel; in general it collects the taxonomy members among
the tokens (so a sentinel token mixed with other taxonomy tokens is dropped
rather than clearing the result); a missing or non-string classification field
yields the empty set without error. -/
theorem gt_normalizer_amended :
    (∀ s : Str, hasSentinel s = false →
      parse_ground_truth_labels ⟨PyVal.missing, PyVal.str s⟩ = parse_inner s) ∧
    (∀ s : Str, parse_ground_truth_labels ⟨PyVal.missing, PyVal.str s⟩ =
      pyDedup [] (((tokensOf s).map normalizeToken).filter
        (fun q => decide (q ∈ taxonomy)))) ∧
    (∀ rec : Rec, rec.classification = PyVal.missing ∨ rec.classification = PyVal.nonStr →
      parse_ground_truth_labels rec = []) := by
  have key : ∀ s : Str, parse_ground_truth_labels ⟨PyVal.missing, PyVal.str s⟩ =
      pyDedup [] (((tokensOf s).map normalizeToken).filter
        (fun q => decide (q ∈ taxonomy))) := by
    intro s
    show (if strip s = [] then [] else pyDedup [] (gtCollect (tokensOf s))) = _
    by_cases h : strip s = []
    · rw [if_pos h, filter_of_blank_tokens s h]
      rfl
    · rw [if_neg h, gtCollect_eq, filter_allowed_eq_taxonomy]
  refine ⟨?_, key, ?_⟩
  · intro s hs
    rw [key s]
    have hno : ∀ x ∈ tokensOf s, normalizeToken x ≠ noneL := by
      intro x hx
      simp only [hasSentinel, List.any_eq_false, decide_eq_true_eq] at hs
      exact hs x hx
    by_cases hc : s = []
    · subst hc
      decide
    · rw [parse_inner, if_neg hc, respCollect_no_sentinel (tokensOf s) hno]
      rw [filter_allowed_eq_taxonomy]
  · rintro rec (h | h) <;> rw [parse_ground_truth_labels, h]

/-- Claim C5 witness: the amended theorem applied at concrete inputs. -/
theorem gt_normalizer_amended_witness :
    parse_ground_truth_labels ⟨PyVal.missing, PyVal.str (lit "credentials, PII")⟩ =
        parse_inner (lit "credentials, PII") ∧
      parse_ground_truth_labels ⟨PyVal.missing, PyVal.nonStr⟩ = [] :=
  ⟨gt_normalizer_amended.1 (lit "credentials, PII") (by decide),
   gt_normalizer_amended.2.2 ⟨PyVal.missing, PyVal.nonStr⟩ (Or.inr rfl)⟩

/-- Claim C6: a record whose comment field is missing, a non-string, or a
blank string produces an immediate result with empty predicted labels and the
explanatory note, and issues zero remote attempts. -/
theorem empty_comment_short_circuit :
    ∀ (outcomes : Nat → Outcome) (idx : Nat) (field : PyVal),
      (field = PyVal.missing ∨ field = PyVal.nonStr ∨
        ∃ s, field = PyVal.str s ∧ strip s = []) →
      (classify_record outcomes idx field).1.pred_labels = [] ∧
      (classify_record outcomes idx field).1.err = some missingMsg ∧
      missingMsg ≠ [] ∧
      (classify_record outcomes idx field).2 = 0 := by
  rintro outcomes idx field (rfl | rfl | ⟨s, rfl, hs⟩)
  · exact ⟨rfl, rfl, by decide, rfl⟩
  · exact ⟨rfl, rfl, by decide, rfl⟩
  · rw [classify_record]
    rw [if_pos hs]
    exact ⟨rfl, rfl, by decide, rfl⟩

/-- Claim C6 witness: the short circuit at a whitespace-only comment. -/
theorem empty_comment_short_circuit_witness :
    (classify_record (fun _ => Outcome.success []) 0 (PyVal.str (lit "  "))).1.pred_labels
        = [] ∧
      (classify_record (fun _ => Outcome.success []) 0 (PyVal.str (lit "  "))).1.err =
        some missingMsg ∧
      missingMsg ≠ [] ∧
      (classify_record (fun _ => Outcome.success []) 0 (PyVal.str (lit "  "))).2 = 0 :=
  empty_comment_short_circuit (fun _ => Outcome.success []) 0 (PyVal.str (lit "  "))
    (Or.inr (Or.inr ⟨lit "  ", rfl, by decide⟩))

/-- Claim C3: when the response contains no delimited answer block and the
salvage of the whole content fails, `ask_llm` reports an explicit non-empty
error, and the stored record carries empty predicted labels together with that
error (never a silent empty prediction). -/
theorem unparseable_records_error :
    ∀ (content s : Str) (idx : Nat),
      strip s ≠ [] →
      extract_xml_answer content = none →
      sanitize_xml (some content) = none →
      (classify_record (fun _ => Outcome.success content) idx (PyVal.str s)).1.pred_labels
          = [] ∧
      (classify_record (fun _ => Outcome.success content) idx (PyVal.str s)).1.err =
        some errNoValid ∧
      errNoValid ≠ [] := by
  intro content s idx hs h1 h2
  have hxml : contentToXml content = none := by
    rw [contentToXml, h1]
    show pyOr (sanitize_xml none) (sanitize_xml (some content)) = none
    rw [h2]
    rfl
  have htrace : ask_llm (fun _ => Outcome.success content) =
      ⟨none, some errNoValid, [], 1⟩ := by
    show ask_llm_go _ MAX_RETRIES 1 SLEEP_BACKOFF [] = _
    show ask_llm_go _ 4 1 SLEEP_BACKOFF [] = _
    rw [ask_llm_go]
    simp only [hxml]
  rw [classify_record, if_neg hs, htrace]
  exact ⟨rfl, rfl, by decide⟩

/-- Claim C3 witness: unparseable garbage yields the explicit error. -/
theorem unparseable_records_error_witness :
    (classify_record (fun _ => Outcome.success (lit "@@@!!!")) 0
        (PyVal.str (lit "x"))).1.pred_labels = [] ∧
      (classify_record (fun _ => Outcome.success (lit "@@@!!!")) 0
        (PyVal.str (lit "x"))).1.err = some errNoValid ∧
      errNoValid ≠ [] :=
  unparseable_records_error (lit "@@@!!!") (lit "x") 0 (by decide) (by decide) (by decide)

/-! ### Sanitizer lemmas (Claim C10) -/

theorem lower_append (a b : Str) : lower (a ++ b) = lower a ++ lower b :=
  List.map_append _ _ _

theorem sanitize_wrap_eq (inner : Str) :
    strip (openL ++ inner ++ closeL) = openL ++ inner ++ closeL ∧
      openL.isPrefixOf (lower (openL ++ inner ++ closeL)) = true ∧
      closeL.isSuffixOf (lower (openL ++ inner ++ closeL)) = true := by
  have hshape : openL ++ inner ++ closeL =
      '<' :: ((lit "xml>" ++ inner ++ lit "</xml") ++ ['>']) := by
    have h1 : openL = '<' :: lit "xml>" := by decide
    have h2 : closeL = lit "</xml" ++ ['>'] := by decide
    rw [h1, h2]
    simp
  refine ⟨?_, ?_, ?_⟩
  · rw [hshape]
    exact strip_of_ends '<' '>' _ (by decide) (by decide)
  · rw [lower_append, lower_append]
    rw [show lower openL = openL from by decide]
    rw [List.isPrefixOf_iff_prefix, List.append_assoc]
    exact List.prefix_append _ _
  · rw [lower_append]
    rw [show lower closeL = closeL from by decide]
    rw [List.isSuffixOf_iff_suffix]
    exact List.suffix_append _ _

/-- Claim C10: the answer sanitizer is idempotent on every string it accepts,
and on an already well-formed delimited answer block it is the identity up to
stripping outer whitespace. -/
theorem sanitize_idempotent :
    (∀ x y : Str, sanitize_xml (some x) = some y → sanitize_xml (some y) = some y) ∧
    (∀ x : Str, x ≠ [] →
      (openL.isPrefixOf (lower (strip x)) && closeL.isSuffixOf (lower (strip x))) = true →
      sanitize_xml (some x) = some (strip x)) := by
  have part2 : ∀ x : Str, x ≠ [] →
      (openL.isPrefixOf (lower (strip x)) && closeL.isSuffixOf (lower (strip x))) = true →
      sanitize_xml (some x) = some (strip x) := by
    intro x hx hcond
    show (if x = [] then none else _) = _
    rw [if_neg hx]
    simp only [hcond]
    rfl
  refine ⟨?_, part2⟩
  intro x y h
  by_cases hx : x = []
  · rw [show sanitize_xml (some x) = none from by rw [hx]; rfl] at h
    exact absurd h (by simp)
  · simp only [sanitize_xml, if_neg hx] at h
    by_cases hcond :
        (openL.isPrefixOf (lower (strip x)) && closeL.isSuffixOf (lower (strip x))) = true
    · rw [if_pos hcond] at h
      have hy : y = strip x := (Option.some_inj.mp h).symm
      have hyne : y ≠ [] := by
        rintro rfl
        rw [← hy] at hcond
        exact absurd (Bool.and_elim_left hcond) (by decide)
      have hsy : strip y = y := by rw [hy, strip_idem]
      rw [part2 y hyne (by rw [hsy, hy]; exact hcond), hsy]
    · rw [if_neg hcond] at h
      by_cases hinner : strip ((strip (stripBackticks (strip x))).filter salvageKeep) = []
      · rw [if_pos hinner] at h
        exact absurd h (by simp)
      · rw [if_neg hinner] at h
        have hy : y = openL ++ strip ((strip (stripBackticks (strip x))).filter salvageKeep)
            ++ closeL := (Option.some_inj.mp h).symm
        obtain ⟨hstr, hpre, hsuf⟩ :=
          sanitize_wrap_eq (strip ((strip (stripBackticks (strip x))).filter salvageKeep))
        have hyne : y ≠ [] := by
          rw [hy]
          intro hcontra
          have := congrArg List.length hcontra
          simp [openL, lit] at this
        have hcond2 : (openL.isPrefixOf (lower (strip y)) &&
            closeL.isSuffixOf (lower (strip y))) = true := by
          rw [hy, hstr, hpre, hsuf]
          rfl
        rw [part2 y hyne hcond2, hy, hstr]

/-- Claim C10 witness: the sanitizer applied twice to a salvaged answer. -/
theorem sanitize_idempotent_witness :
    sanitize_xml (some (lit "<xml>credentials</xml>")) =
        some (lit "<xml>credentials</xml>") ∧
      sanitize_xml (some (lit " <XML>pii</XML> ")) = some (lit "<XML>pii</XML>") :=
  ⟨sanitize_idempotent.1 (lit "```credentials```") (lit "<xml>credentials</xml>")
      (by decide),
   sanitize_idempotent.2 (lit " <XML>pii</XML> ") (by decide) (by decide)⟩

/-! ### Retry loop lemmas (Claim C4) -/

/-- The backoff schedule: starting value times powers of the growth factor. -/
def retrySleeps (b : ℚ) (n : Nat) : List ℚ :=
  (List.range n).map (fun j => b * BACKOFF_FACTOR ^ j)

theorem retrySleeps_succ (b : ℚ) (n : Nat) :
    retrySleeps b (n + 1) = b :: retrySleeps (b * BACKOFF_FACTOR) n := by
  unfold retrySleeps
  rw [List.range_succ_eq_map, List.map_cons, List.map_map]
  congr 1
  · simp
  · have : ((fun j => b * BACKOFF_FACTOR ^ j) ∘ Nat.succ) =
        fun j => b * BACKOFF_FACTOR * BACKOFF_FACTOR ^ j := by
      funext j
      simp only [Function.comp_apply, pow_succ]
      ring
    rw [this]

theorem go_attempts : ∀ (fuel : Nat) (outcomes : Nat → Outcome) (a : Nat) (b : ℚ)
    (s : List ℚ), 1 ≤ fuel → a + fuel = MAX_RETRIES + 1 →
    a ≤ (ask_llm_go outcomes fuel a b s).attempts ∧
      (ask_llm_go outcomes fuel a b s).attempts ≤ MAX_RETRIES
  | 0, _, _, _, _, h, _ => absurd h (by omega)
  | fuel + 1, outcomes, a, b, s, _, hsum => by
    simp only [MAX_RETRIES] at hsum ⊢
    rw [ask_llm_go]
    cases ho : outcomes a with
    | success c =>
      cases hx : contentToXml c <;> simp [hx] <;> omega
    | rateLimit m =>
      simp only [MAX_RETRIES]
      by_cases ha : a = 4
      · simp [ha]
      · simp only [if_neg ha]
        have := go_attempts fuel outcomes (a + 1) (b * BACKOFF_FACTOR) (s ++ [b])
          (by omega) (by simp only [MAX_RETRIES]; omega)
        simp only [MAX_RETRIES] at this
        omega
    | internalServer m =>
      simp only [MAX_RETRIES]
      by_cases ha : a = 4
      · simp [ha]
      · simp only [if_neg ha]
        have := go_attempts fuel outcomes (a + 1) (b * BACKOFF_FACTOR) (s ++ [b])
          (by omega) (by simp only [MAX_RETRIES]; omega)
        simp only [MAX_RETRIES] at this
        omega
    | unexpected m =>
      simp only [MAX_RETRIES]
      by_cases ha : a = 4
      · simp [ha]
      · simp only [if_neg ha]
        have := go_attempts fuel outcomes (a + 1) (b * BACKOFF_FACTOR) (s ++ [b])
          (by omega) (by simp only [MAX_RETRIES]; omega)
        simp only [MAX_RETRIES] at this
        omega
    | apiError m =>
      simp
      omega
    | badRequest m =>
      simp
      omega

theorem go_sleeps : ∀ (fuel : Nat) (outcomes : Nat → Outcome) (a : Nat) (b : ℚ)
    (s : List ℚ), 1 ≤ fuel → a + fuel = MAX_RETRIES + 1 →
    (ask_llm_go outcomes fuel a b s).sleeps =
      s ++ retrySleeps b ((ask_llm_go outcomes fuel a b s).attempts - a)
  | 0, _, _, _, _, h, _ => absurd h (by omega)
  | fuel + 1, outcomes, a, b, s, _, hsum => by
    have hM : MAX_RETRIES = 4 := rfl
    rw [hM] at hsum
    rw [ask_llm_go]
    cases ho : outcomes a with
    | success c =>
      cases hx : contentToXml c <;> simp [hx, retrySleeps]
    | rateLimit m =>
      by_cases ha : a = MAX_RETRIES
      · simp [ha, retrySleeps]
      · simp only [if_neg ha]
        rw [hM] at ha
        have hrec := go_sleeps fuel outcomes (a + 1) (b * BACKOFF_FACTOR) (s ++ [b])
          (by omega) (by rw [hM]; omega)
        have hatt := go_attempts fuel outcomes (a + 1) (b * BACKOFF_FACTOR) (s ++ [b])
          (by omega) (by rw [hM]; omega)
        rw [hrec]
        have hsub : (ask_llm_go outcomes fuel (a + 1) (b * BACKOFF_FACTOR)
            (s ++ [b])).attempts - a =
            ((ask_llm_go outcomes fuel (a + 1) (b * BACKOFF_FACTOR)
              (s ++ [b])).attempts - (a + 1)) + 1 := by omega
        rw [hsub, retrySleeps_succ]
        simp
    | internalServer m =>
      by_cases ha : a = MAX_RETRIES
      · simp [ha, retrySleeps]
      · simp only [if_neg ha]
        rw [hM] at ha
        have hrec := go_sleeps fuel outcomes (a + 1) (b * BACKOFF_FACTOR) (s ++ [b])
          (by omega) (by rw [hM]; omega)
        have hatt := go_attempts fuel outcomes (a + 1) (b * BACKOFF_FACTOR) (s ++ [b])
          (by omega) (by rw [hM]; omega)
        rw [hrec]
        have hsub : (ask_llm_go outcomes fuel (a + 1) (b * BACKOFF_FACTOR)
            (s ++ [b])).attempts - a =
            ((ask_llm_go outcomes fuel (a + 1) (b * BACKOFF_FACTOR)
              (s ++ [b])).attempts - (a + 1)) + 1 := by omega
        rw [hsub, retrySleeps_succ]
        simp
    | unexpected m =>
      by_cases ha : a = MAX_RETRIES
      · simp [ha, retrySleeps]
      · simp only [if_neg ha]
        rw [hM] at ha
        have hrec := go_sleeps fuel outcomes (a + 1) (b * BACKOFF_FACTOR) (s ++ [b])
          (by omega) (by rw [hM]; omega)
        have hatt := go_attempts fuel outcomes (a + 1) (b * BACKOFF_FACTOR) (s ++ [b])
          (by omega) (by rw [hM]; omega)
        rw [hrec]
        have hsub : (ask_llm_go outcomes fuel (a + 1) (b * BACKOFF_FACTOR)
            (s ++ [b])).attempts - a =
            ((ask_llm_go outcomes fuel (a + 1) (b * BACKOFF_FACTOR)
              (s ++ [b])).attempts - (a + 1)) + 1 := by omega
        rw [hsub, retrySleeps_succ]
        simp
    | apiError m => simp [retrySleeps]
    | badRequest m => simp [retrySleeps]

theorem go_fatal : ∀ (fuel : Nat) (outcomes : Nat → Outcome) (a : Nat) (b : ℚ)
    (s : List ℚ), 1 ≤ fuel → a + fuel = MAX_RETRIES + 1 →
    ∀ k, a ≤ k → k ≤ MAX_RETRIES → isFatal (outcomes k) = true →
    (∀ j, a ≤ j → j < k → isRetryable (outcomes j) = true) →
    (ask_llm_go outcomes fuel a b s).answer = none ∧
      (ask_llm_go outcomes fuel a b s).err = some (fmtErr (outcomes k)) ∧
      (ask_llm_go outcomes fuel a b s).attempts = k
  | 0, _, _, _, _, h, _ => absurd h (by omega)
  | fuel + 1, outcomes, a, b, s, _, hsum => by
    have hM : MAX_RETRIES = 4 := rfl
    rw [hM] at hsum
    intro k hak hk4 hfat hretry
    rw [hM] at hk4
    rw [ask_llm_go]
    cases ho : outcomes a with
    | success c =>
      exfalso
      rcases Nat.eq_or_lt_of_le hak with rfl | hlt
      · rw [ho] at hfat
        simp [isFatal] at hfat
      · have := hretry a (Nat.le_refl a) hlt
        rw [ho] at this
        simp [isRetryable] at this
    | rateLimit m =>
      rcases Nat.eq_or_lt_of_le hak with rfl | hlt
      · rw [ho] at hfat
        simp [isFatal] at hfat
      · by_cases ha : a = MAX_RETRIES
        · rw [hM] at ha
          omega
        · simp only [if_neg ha]
          exact go_fatal fuel outcomes (a + 1) (b * BACKOFF_FACTOR) (s ++ [b])
            (by rw [hM] at ha; omega) (by rw [hM] at ha ⊢; omega) k hlt
            (by rw [hM]; omega) hfat (fun j h1 h2 => hretry j (by omega) h2)
    | internalServer m =>
      rcases Nat.eq_or_lt_of_le hak with rfl | hlt
      · rw [ho] at hfat
        simp [isFatal] at hfat
      · by_cases ha : a = MAX_RETRIES
        · rw [hM] at ha
          omega
        · simp only [if_neg ha]
          exact go_fatal fuel outcomes (a + 1) (b * BACKOFF_FACTOR) (s ++ [b])
            (by rw [hM] at ha; omega) (by rw [hM] at ha ⊢; omega) k hlt
            (by rw [hM]; omega) hfat (fun j h1 h2 => hretry j (by omega) h2)
    | unexpected m =>
      rcases Nat.eq_or_lt_of_le hak with rfl | hlt
      · rw [ho] at hfat
        simp [isFatal] at hfat
      · by_cases ha : a = MAX_RETRIES
        · rw [hM] at ha
          omega
        · simp only [if_neg ha]
          exact go_fatal fuel outcomes (a + 1) (b * BACKOFF_FACTOR) (s ++ [b])
            (by rw [hM] at ha; omega) (by rw [hM] at ha ⊢; omega) k hlt
            (by rw [hM]; omega) hfat (fun j h1 h2 => hretry j (by omega) h2)
    | apiError m =>
      rcases Nat.eq_or_lt_of_le hak with rfl | hlt
      · rw [ho]
        exact ⟨rfl, rfl, rfl⟩
      · have := hretry a (Nat.le_refl a) hlt
        rw [ho] at this
        simp [isRetryable] at this
    | badRequest m =>
      rcases Nat.eq_or_lt_of_le hak with rfl | hlt
      · rw [ho]
        exact ⟨rfl, rfl, rfl⟩
      · have := hretry a (Nat.le_refl a) hlt
        rw [ho] at this
        simp [isRetryable] at this

theorem go_exhaust : ∀ (fuel : Nat) (outcomes : Nat → Outcome) (a : Nat) (b : ℚ)
    (s : List ℚ), 1 ≤ fuel → a + fuel = MAX_RETRIES + 1 →
    (∀ j, a ≤ j → j ≤ MAX_RETRIES → isRetryable (outcomes j) = true) →
    (ask_llm_go outcomes fuel a b s).answer = none ∧
      (ask_llm_go outcomes fuel a b s).err = some (fmtErr (outcomes MAX_RETRIES)) ∧
      (ask_llm_go outcomes fuel a b s).attempts = MAX_RETRIES
  | 0, _, _, _, _, h, _ => absurd h (by omega)
  | fuel + 1, outcomes, a, b, s, _, hsum => by
    have hM : MAX_RETRIES = 4 := rfl
    rw [hM] at hsum
    intro hretry
    have hra := hretry a (Nat.le_refl a) (by rw [hM]; omega)
    rw [ask_llm_go]
    cases ho : outcomes a with
    | success c =>
      rw [ho] at hra
      simp [isRetryable] at hra
    | apiError m =>
      rw [ho] at hra
      simp [isRetryable] at hra
    | badRequest m =>
      rw [ho] at hra
      simp [isRetryable] at hra
    | rateLimit m =>
      by_cases ha : a = MAX_RETRIES
      · subst ha
        refine ⟨?_, ?_, ?_⟩ <;> simp [ho]
      · simp only [if_neg ha]
        exact go_exhaust fuel outcomes (a + 1) (b * BACKOFF_FACTOR) (s ++ [b])
          (by rw [hM] at ha; omega) (by rw [hM] at ha ⊢; omega)
          (fun j h1 h2 => hretry j (by omega) h2)
    | internalServer m =>
      by_cases ha : a = MAX_RETRIES
      · subst ha
        refine ⟨?_, ?_, ?_⟩ <;> simp [ho]
      · simp only [if_neg ha]
        exact go_exhaust fuel outcomes (a + 1) (b * BACKOFF_FACTOR) (s ++ [b])
          (by rw [hM] at ha; omega) (by rw [hM] at ha ⊢; omega)
          (fun j h1 h2 => hretry j (by omega) h2)
    | unexpected m =>
      by_cases ha : a = MAX_RETRIES
      · subst ha
        refine ⟨?_, ?_, ?_⟩ <;> simp [ho]
      · simp only [if_neg ha]
        exact go_exhaust fuel outcomes (a + 1) (b * BACKOFF_FACTOR) (s ++ [b])
          (by rw [hM] at ha; omega) (by rw [hM] at ha ⊢; omega)
          (fun j h1 h2 => hretry j (by omega) h2)

/-- Claim C4: the Classification Client makes at most `MAX_RETRIES` (4)
attempts; its sleeps follow the backoff schedule starting at 2.0 and multiplied
by 1.7 after each retry; a non-retryable failure (API rejection or malformed
request) preceded only by retryable failures terminates immediately with that
error; and exhausting the budget on retryable failures terminates with the
last error. -/
theorem ask_llm_retry_policy (outcomes : Nat → Outcome) :
    (1 ≤ (ask_llm outcomes).attempts ∧ (ask_llm outcomes).attempts ≤ MAX_RETRIES) ∧
    (ask_llm outcomes).sleeps =
      retrySleeps SLEEP_BACKOFF ((ask_llm outcomes).attempts - 1) ∧
    (∀ k, 1 ≤ k → k ≤ MAX_RETRIES → isFatal (outcomes k) = true →
      (∀ j, 1 ≤ j → j < k → isRetryable (outcomes j) = true) →
      (ask_llm outcomes).answer = none ∧
        (ask_llm outcomes).err = some (fmtErr (outcomes k)) ∧
        (ask_llm outcomes).attempts = k) ∧
    ((∀ j, 1 ≤ j → j ≤ MAX_RETRIES → isRetryable (outcomes j) = true) →
      (ask_llm outcomes).answer = none ∧
        (ask_llm outcomes).err = some (fmtErr (outcomes MAX_RETRIES)) ∧
        (ask_llm outcomes).attempts = MAX_RETRIES) := by
  refine ⟨go_attempts MAX_RETRIES outcomes 1 SLEEP_BACKOFF [] (by decide) (by decide),
    ?_, ?_, ?_⟩
  · exact go_sleeps MAX_RETRIES outcomes 1 SLEEP_BACKOFF [] (by decide) (by decide)
  · exact go_fatal MAX_RETRIES outcomes 1 SLEEP_BACKOFF [] (by decide) (by decide)
  · exact go_exhaust MAX_RETRIES outcomes 1 SLEEP_BACKOFF [] (by decide) (by decide)

/-- Claim C4 witness: one rate-limit retry followed by a bad request stops at
attempt 2 with the bad-request error after a single 2.0 sleep. -/
theorem ask_llm_retry_policy_witness :
    (ask_llm (fun k => if k = 1 then Outcome.rateLimit (lit "r")
        else Outcome.badRequest (lit "b"))).answer = none ∧
    (ask_llm (fun k => if k = 1 then Outcome.rateLimit (lit "r")
        else Outcome.badRequest (lit "b"))).err =
      some (fmtErr (Outcome.badRequest (lit "b"))) ∧
    (ask_llm (fun k => if k = 1 then Outcome.rateLimit (lit "r")
        else Outcome.badRequest (lit "b"))).attempts = 2 ∧
    (ask_llm (fun k => if k = 1 then Outcome.rateLimit (lit "r")
        else Outcome.badRequest (lit "b"))).sleeps = [SLEEP_BACKOFF] := by
  have h := ask_llm_retry_policy (fun k => if k = 1 then Outcome.rateLimit (lit "r")
    else Outcome.badRequest (lit "b"))
  obtain ⟨-, hs, hf, -⟩ := h
  have hk := hf 2 (by omega) (by decide) (by decide)
    (fun j h1 h2 => by
      have : j = 1 := by omega
      subst this
      decide)
  obtain ⟨h1, h2, h3⟩ := hk
  refine ⟨h1, by simpa using h2, h3, ?_⟩
  rw [hs, h3]
  simp [retrySleeps, List.range_succ]

/-! ### Metrics fold lemmas (Claims C1 and C8) -/

/-- Exact-match test for one (record, result) pair. -/
def exactB (p : Rec × Stored) : Bool :=
  setEq (pySet p.2.pred_labels) (pySet (parse_ground_truth_labels p.1))

/-- Hit test for one (record, result) pair. -/
def hitB (p : Rec × Stored) : Bool :=
  hitNow (pySet p.2.pred_labels) (pySet (parse_ground_truth_labels p.1))

/-- Does the predicted set of this pair contain the label? -/
def predHasB (a : Str) (p : Rec × Stored) : Bool := decide (a ∈ pySet p.2.pred_labels)

/-- Does the ground-truth set of this pair contain the label? -/
def gtHasB (a : Str) (p : Rec × Stored) : Bool :=
  decide (a ∈ pySet (parse_ground_truth_labels p.1))

def tpB (a : Str) (p : Rec × Stored) : Bool :=
  decide (a ∈ setInter (pySet p.2.pred_labels) (pySet (parse_ground_truth_labels p.1)))

def fpB (a : Str) (p : Rec × Stored) : Bool :=
  decide (a ∈ setDiff (pySet p.2.pred_labels) (pySet (parse_ground_truth_labels p.1)))

def fnB (a : Str) (p : Rec × Stored) : Bool :=
  decide (a ∈ setDiff (pySet (parse_ground_truth_labels p.1)) (pySet p.2.pred_labels))

theorem livePassFrom_done : ∀ (l : List (Rec × Stored)) (st : SemState),
    (livePassFrom st l).sem_num_done = st.sem_num_done + l.length
  | [], st => by simp [livePassFrom]
  | p :: rest, st => by
    show (livePassFrom (liveUpdate st p.1 p.2) rest).sem_num_done = _
    rw [livePassFrom_done rest (liveUpdate st p.1 p.2)]
    simp [liveUpdate]
    omega

theorem livePassFrom_exact : ∀ (l : List (Rec × Stored)) (st : SemState),
    (livePassFrom st l).sem_num_exact = st.sem_num_exact + l.countP exactB
  | [], st => by simp [livePassFrom]
  | p :: rest, st => by
    show (livePassFrom (liveUpdate st p.1 p.2) rest).sem_num_exact = _
    rw [livePassFrom_exact rest (liveUpdate st p.1 p.2), List.countP_cons]
    simp [liveUpdate, exactB]
    omega

theorem livePassFrom_hit : ∀ (l : List (Rec × Stored)) (st : SemState),
    (livePassFrom st l).sem_num_hit_incl_none = st.sem_num_hit_incl_none + l.countP hitB
  | [], st => by simp [livePassFrom]
  | p :: rest, st => by
    show (livePassFrom (liveUpdate st p.1 p.2) rest).sem_num_hit_incl_none = _
    rw [livePassFrom_hit rest (liveUpdate st p.1 p.2), List.countP_cons]
    simp [liveUpdate, hitB]
    omega

theorem livePassFrom_freq : ∀ (l : List (Rec × Stored)) (st : SemState) (a : Str),
    countLabel a (livePassFrom st l).sem_pred_label_freq =
      countLabel a st.sem_pred_label_freq + l.countP (predHasB a)
  | [], st, a => by simp [livePassFrom]
  | p :: rest, st, a => by
    show countLabel a (livePassFrom (liveUpdate st p.1 p.2) rest).sem_pred_label_freq = _
    rw [livePassFrom_freq rest (liveUpdate st p.1 p.2) a, List.countP_cons]
    have hupd : (liveUpdate st p.1 p.2).sem_pred_label_freq =
        st.sem_pred_label_freq ++ pySet p.2.pred_labels := by simp [liveUpdate]
    rw [hupd, countLabel_append,
      countLabel_nodup a (pySet p.2.pred_labels) (pyDedup_nodup _ _)]
    simp only [predHasB]
    by_cases h : a ∈ pySet p.2.pred_labels <;> simp [h] <;> omega

theorem finalPassFrom_done : ∀ (l : List (Rec × Stored)) (st : FinalState),
    (finalPassFrom st l).num_done = st.num_done + l.length
  | [], st => by simp [finalPassFrom]
  | p :: rest, st => by
    show (finalPassFrom (finalUpdate st p.1 p.2) rest).num_done = _
    rw [finalPassFrom_done rest (finalUpdate st p.1 p.2)]
    simp [finalUpdate]
    omega

theorem finalPassFrom_exact : ∀ (l : List (Rec × Stored)) (st : FinalState),
    (finalPassFrom st l).num_exact = st.num_exact + l.countP exactB
  | [], st => by simp [finalPassFrom]
  | p :: rest, st => by
    show (finalPassFrom (finalUpdate st p.1 p.2) rest).num_exact = _
    rw [finalPassFrom_exact rest (finalUpdate st p.1 p.2), List.countP_cons]
    simp [finalUpdate, exactB]
    omega

theorem finalPassFrom_hit : ∀ (l : List (Rec × Stored)) (st : FinalState),
    (finalPassFrom st l).num_hit_incl_none = st.num_hit_incl_none + l.countP hitB
  | [], st => by simp [finalPassFrom]
  | p :: rest, st => by
    show (finalPassFrom (finalUpdate st p.1 p.2) rest).num_hit_incl_none = _
    rw [finalPassFrom_hit rest (finalUpdate st p.1 p.2), List.countP_cons]
    simp [finalUpdate, hitB]
    omega

theorem finalPassFrom_freq : ∀ (l : List (Rec × Stored)) (st : FinalState) (a : Str),
    countLabel a (finalPassFrom st l).pred_label_freq =
      countLabel a st.pred_label_freq + l.countP (predHasB a)
  | [], st, a => by simp [finalPassFrom]
  | p :: rest, st, a => by
    show countLabel a (finalPassFrom (finalUpdate st p.1 p.2) rest).pred_label_freq = _
    rw [finalPassFrom_freq rest (finalUpdate st p.1 p.2) a, List.countP_cons]
    have hupd : (finalUpdate st p.1 p.2).pred_label_freq =
        st.pred_label_freq ++ pySet p.2.pred_labels := by simp [finalUpdate]
    rw [hupd, countLabel_append,
      countLabel_nodup a (pySet p.2.pred_labels) (pyDedup_nodup _ _)]
    simp only [predHasB]
    by_cases h : a ∈ pySet p.2.pred_labels <;> simp [h] <;> omega

theorem finalPassFrom_tp : ∀ (l : List (Rec × Stored)) (st : FinalState) (a : Str),
    countLabel a (finalPassFrom st l).tp_label =
      countLabel a st.tp_label + l.countP (tpB a)
  | [], st, a => by simp [finalPassFrom]
  | p :: rest, st, a => by
    show countLabel a (finalPassFrom (finalUpdate st p.1 p.2) rest).tp_label = _
    rw [finalPassFrom_tp rest (finalUpdate st p.1 p.2) a, List.countP_cons]
    have hupd : (finalUpdate st p.1 p.2).tp_label = st.tp_label ++
        setInter (pySet p.2.pred_labels) (pySet (parse_ground_truth_labels p.1)) := by
      simp [finalUpdate]
    rw [hupd, countLabel_append, countLabel_nodup a
      (setInter (pySet p.2.pred_labels) (pySet (parse_ground_truth_labels p.1)))
      (by exact (pyDedup_nodup _ _).filter _)]
    simp only [tpB]
    by_cases h : a ∈ setInter (pySet p.2.pred_labels)
        (pySet (parse_ground_truth_labels p.1)) <;> simp [h] <;> omega

theorem finalPassFrom_fp : ∀ (l : List (Rec × Stored)) (st : FinalState) (a : Str),
    countLabel a (finalPassFrom st l).fp_label =
      countLabel a st.fp_label + l.countP (fpB a)
  | [], st, a => by simp [finalPassFrom]
  | p :: rest, st, a => by
    show countLabel a (finalPassFrom (finalUpdate st p.1 p.2) rest).fp_label = _
    rw [finalPassFrom_fp rest (finalUpdate st p.1 p.2) a, List.countP_cons]
    have hupd : (finalUpdate st p.1 p.2).fp_label = st.fp_label ++
        setDiff (pySet p.2.pred_labels) (pySet (parse_ground_truth_labels p.1)) := by
      simp [finalUpdate]
    rw [hupd, countLabel_append, countLabel_nodup a
      (setDiff (pySet p.2.pred_labels) (pySet (parse_ground_truth_labels p.1)))
      (by exact (pyDedup_nodup _ _).filter _)]
    simp only [fpB]
    by_cases h : a ∈ setDiff (pySet p.2.pred_labels)
        (pySet (parse_ground_truth_labels p.1)) <;> simp [h] <;> omega

theorem finalPassFrom_fn : ∀ (l : List (Rec × Stored)) (st : FinalState) (a : Str),
    countLabel a (finalPassFrom st l).fn_label =
      countLabel a st.fn_label + l.countP (fnB a)
  | [], st, a => by simp [finalPassFrom]
  | p :: rest, st, a => by
    show countLabel a (finalPassFrom (finalUpdate st p.1 p.2) rest).fn_label = _
    rw [finalPassFrom_fn rest (finalUpdate st p.1 p.2) a, List.countP_cons]
    have hupd : (finalUpdate st p.1 p.2).fn_label = st.fn_label ++
        setDiff (pySet (parse_ground_truth_labels p.1)) (pySet p.2.pred_labels) := by
      simp [finalUpdate]
    rw [hupd, countLabel_append, countLabel_nodup a
      (setDiff (pySet (parse_ground_truth_labels p.1)) (pySet p.2.pred_labels))
      (by exact (pyDedup_nodup _ _).filter _)]
    simp only [fnB]
    by_cases h : a ∈ setDiff (pySet (parse_ground_truth_labels p.1))
        (pySet p.2.pred_labels) <;> simp [h] <;> omega

/-- Claim C1: the four live totals (completed, exact matches, hits including
empty-vs-empty, predicted-label frequencies) computed over any completion
order agree with the final sequential pass over the stored results in record
order. -/
theorem live_final_totals_agree (pairs order : List (Rec × Stored))
    (h : order.Perm pairs) :
    (livePass order).sem_num_done = (finalPass pairs).num_done ∧
    (livePass order).sem_num_exact = (finalPass pairs).num_exact ∧
    (livePass order).sem_num_hit_incl_none = (finalPass pairs).num_hit_incl_none ∧
    ∀ a : Str, countLabel a (livePass order).sem_pred_label_freq =
      countLabel a (finalPass pairs).pred_label_freq := by
  refine ⟨?_, ?_, ?_, ?_⟩
  · rw [livePass, livePassFrom_done, finalPass, finalPassFrom_done]
    simp [h.length_eq]
  · rw [livePass, livePassFrom_exact, finalPass, finalPassFrom_exact]
    simp [h.countP_eq]
  · rw [livePass, livePassFrom_hit, finalPass, finalPassFrom_hit]
    simp [h.countP_eq]
  · intro a
    rw [livePass, livePassFrom_freq, finalPass, finalPassFrom_freq]
    simp [countLabel, h.countP_eq]

/-- Claim C1 witness: the agreement at a two-record result set consumed in
reversed completion order. -/
theorem live_final_totals_agree_witness :
    (livePass [(⟨PyVal.missing, PyVal.missing⟩, ⟨1, [], [], none, 0⟩),
        (⟨PyVal.missing, PyVal.str (lit "credentials")⟩,
          ⟨0, [], [lit "credentials"], none, 5⟩)]).sem_num_done =
      (finalPass [(⟨PyVal.missing, PyVal.str (lit "credentials")⟩,
          ⟨0, [], [lit "credentials"], none, 5⟩),
        (⟨PyVal.missing, PyVal.missing⟩, ⟨1, [], [], none, 0⟩)]).num_done ∧
    countLabel (lit "credentials")
        (livePass [(⟨PyVal.missing, PyVal.missing⟩, ⟨1, [], [], none, 0⟩),
          (⟨PyVal.missing, PyVal.str (lit "credentials")⟩,
            ⟨0, [], [lit "credentials"], none, 5⟩)]).sem_pred_label_freq =
      countLabel (lit "credentials")
        (finalPass [(⟨PyVal.missing, PyVal.str (lit "credentials")⟩,
            ⟨0, [], [lit "credentials"], none, 5⟩),
          (⟨PyVal.missing, PyVal.missing⟩, ⟨1, [], [], none, 0⟩)]).pred_label_freq := by
  have h := live_final_totals_agree
    [(⟨PyVal.missing, PyVal.str (lit "credentials")⟩,
        ⟨0, [], [lit "credentials"], none, 5⟩),
      (⟨PyVal.missing, PyVal.missing⟩, ⟨1, [], [], none, 0⟩)]
    [(⟨PyVal.missing, PyVal.missing⟩, ⟨1, [], [], none, 0⟩),
      (⟨PyVal.missing, PyVal.str (lit "credentials")⟩,
        ⟨0, [], [lit "credentials"], none, 5⟩)]
    (List.Perm.swap _ _ [])
  exact ⟨h.1, h.2.2.2 (lit "credentials")⟩

theorem countP_split (f g h : (Rec × Stored) → Bool)
    (H : ∀ x, (if f x then 1 else 0) + (if g x then 1 else 0) =
      if h x then (1 : Nat) else 0) :
    ∀ l : List (Rec × Stored), l.countP f + l.countP g = l.countP h
  | [] => by simp
  | x :: l => by
    rw [List.countP_cons, List.countP_cons, List.countP_cons]
    have h1 := countP_split f g h H l
    have h2 := H x
    omega

/-- Claim C8: for every result set and label, TP + FP equals the number of
records whose predicted set contains the label, and TP + FN equals the number
of records whose ground-truth set contains it. -/
theorem tp_fp_fn_identity (pairs : List (Rec × Stored)) (a : Str) :
    countLabel a (finalPass pairs).tp_label + countLabel a (finalPass pairs).fp_label =
        pairs.countP (predHasB a) ∧
      countLabel a (finalPass pairs).tp_label + countLabel a (finalPass pairs).fn_label =
        pairs.countP (gtHasB a) := by
  rw [finalPass, finalPassFrom_tp, finalPassFrom_fp, finalPassFrom_fn]
  constructor
  · have := countP_split (tpB a) (fpB a) (predHasB a) (fun x => by
      by_cases h1 : a ∈ pySet x.2.pred_labels <;>
        by_cases h2 : a ∈ pySet (parse_ground_truth_labels x.1) <;>
          simp [tpB, fpB, predHasB, setInter, setDiff, List.mem_filter, h1, h2]) pairs
    simpa [countLabel] using this
  · have := countP_split (tpB a) (fnB a) (gtHasB a) (fun x => by
      by_cases h1 : a ∈ pySet x.2.pred_labels <;>
        by_cases h2 : a ∈ pySet (parse_ground_truth_labels x.1) <;>
          simp [tpB, fnB, gtHasB, setInter, setDiff, List.mem_filter, h1, h2]) pairs
    simpa [countLabel] using this

/-! ### Dispatch lemmas (Claim C9) -/

theorem classify_record_idx (outcomes : Nat → Outcome) (idx : Nat) (field : PyVal) :
    (classify_record outcomes idx field).1.idx = idx := by
  cases field with
  | missing => rfl
  | nonStr => rfl
  | str s =>
    rw [classify_record]
    by_cases hs : strip s = []
    · rw [if_pos hs]
    · rw [if_neg hs]
      cases h : (ask_llm outcomes).answer <;> simp [h]

theorem runWorker_idx (oracle : Nat → Nat → Outcome) (faults : Nat → Option Str)
    (records : List Rec) (i : Nat) :
    (runWorker oracle faults records i).idx = i := by
  rw [runWorker]
  cases faults i with
  | none => exact classify_record_idx _ _ _
  | some m => rfl

theorem foldl_set_length (f : Nat → Option Stored) :
    ∀ (order : List Nat) (init : List (Option Stored)),
      (order.foldl (fun rs i => rs.set i (f i)) init).length = init.length
  | [], _ => rfl
  | j :: rest, init => by
    show (rest.foldl (fun rs i => rs.set i (f i)) (init.set j (f j))).length = _
    rw [foldl_set_length f rest (init.set j (f j)), List.length_set]

theorem foldl_set_not_mem (f : Nat → Option Stored) :
    ∀ (order : List Nat) (init : List (Option Stored)) (i : Nat), i ∉ order →
      (order.foldl (fun rs i => rs.set i (f i)) init).getD i none = init.getD i none
  | [], _, _, _ => rfl
  | j :: rest, init, i, h => by
    have hij : i ≠ j := fun hc => h (hc ▸ List.mem_cons_self j rest)
    have hrest : i ∉ rest := fun hc => h (List.mem_cons_of_mem _ hc)
    show (rest.foldl (fun rs i => rs.set i (f i)) (init.set j (f j))).getD i none = _
    rw [foldl_set_not_mem f rest (init.set j (f j)) i hrest]
    rw [List.getD_eq_getElem?_getD, List.getD_eq_getElem?_getD,
      List.getElem?_set_ne (Ne.symm hij)]

theorem foldl_set_mem (f : Nat → Option Stored) :
    ∀ (order : List Nat) (init : List (Option Stored)) (i : Nat), i ∈ order →
      i < init.length →
      (order.foldl (fun rs i => rs.set i (f i)) init).getD i none = f i
  | [], _, _, h, _ => absurd h (List.not_mem_nil _)
  | j :: rest, init, i, h, hlen => by
    show (rest.foldl (fun rs i => rs.set i (f i)) (init.set j (f j))).getD i none = f i
    by_cases hir : i ∈ rest
    · exact foldl_set_mem f rest (init.set j (f j)) i hir (by rw [List.length_set]; exact hlen)
    · have hij : i = j := by
        rcases List.mem_cons.mp h with h1 | h1
        · exact h1
        · exact absurd h1 hir
      subst hij
      rw [foldl_set_not_mem f rest (init.set i (f i)) i hir]
      rw [List.getD_eq_getElem?_getD, List.getElem?_set_self hlen]
      rfl

/-- Claim C9: dispatching `N` records over a pool of `W ≤ N` workers, with
completions arriving in any order, fills a results collection of exactly `N`
slots, the slot at each position holding the result whose identifier equals
that position — no duplicate and no missing identifiers. -/
theorem dispatch_positions (W : Nat) (oracle : Nat → Nat → Outcome)
    (faults : Nat → Option Str) (records : List Rec) (order : List Nat)
    (hW : W ≤ records.length) (hperm : order.Perm (List.range records.length)) :
    (dispatch W oracle faults records order).length = records.length ∧
    ∀ i, i < records.length →
      (dispatch W oracle faults records order).getD i none =
        some (runWorker oracle faults records i) ∧
      (runWorker oracle faults records i).idx = i := by
  constructor
  · rw [dispatch, foldl_set_length]
    exact List.length_replicate _ _
  · intro i hi
    refine ⟨?_, runWorker_idx oracle faults records i⟩
    rw [dispatch]
    exact foldl_set_mem (fun i => some (runWorker oracle faults records i)) order
      (List.replicate records.length none) i
      (hperm.mem_iff.mpr (List.mem_range.mpr hi))
      (by rw [List.length_replicate]; exact hi)

/-- Claim C9 witness: 50 records dispatched on 4 workers with completions in
reversed order; slot 7 holds the result with identifier 7. -/
theorem dispatch_positions_witness :
    (dispatch 4 (fun _ _ => Outcome.success []) (fun _ => none)
        (List.replicate 50 defaultRec) (List.range 50).reverse).length = 50 ∧
      (dispatch 4 (fun _ _ => Outcome.success []) (fun _ => none)
          (List.replicate 50 defaultRec) (List.range 50).reverse).getD 7 none =
        some (runWorker (fun _ _ => Outcome.success []) (fun _ => none)
          (List.replicate 50 defaultRec) 7) ∧
      (runWorker (fun _ _ => Outcome.success []) (fun _ => none)
        (List.replicate 50 defaultRec) 7).idx = 7 := by
  have h := dispatch_positions 4 (fun _ _ => Outcome.success []) (fun _ => none)
    (List.replicate 50 defaultRec) (List.range 50).reverse
    (by rw [List.length_replicate]; omega)
    (by rw [List.length_replicate]; exact List.reverse_perm _)
  have h2 := h.2 7 (by rw [List.length_replicate]; omega)
  exact ⟨by rw [h.1, List.length_replicate], h2.1, h2.2⟩

/-! ### Normalization invariance (Claim C7) -/

theorem ciPref_of_lower : ∀ (t pat s : Str), lower t = pat →
    (∀ c ∈ pat, pyLower c = c) → ciPref pat (t ++ s) = true
  | [], pat, s, h, _ => by
    rw [← h]
    rfl
  | a :: t', pat, s, h, hfix => by
    rw [← h]
    show ciPref (pyLower a :: lower t') (a :: (t' ++ s)) = true
    rw [ciPref, Bool.and_eq_true]
    constructor
    · have hmem : pyLower a ∈ pat := by
        rw [← h]
        exact List.mem_cons_self _ _
      rw [ciEq, hfix (pyLower a) hmem]
      exact beq_self_eq_true _
    · exact ciPref_of_lower t' (lower t') s rfl (fun ch hch => by
        have : ch ∈ pat := by
          rw [← h]
          exact List.mem_cons_of_mem _ hch
        exact hfix ch this)

theorem findCI_append (pat : Str) : ∀ (p rest : Str),
    (∀ r ∈ p.tails, r ≠ [] → ciPref pat (r ++ rest) = false) →
    ciPref pat rest = true →
    findCI pat (p ++ rest) = some p.length
  | [], rest, _, hyes => by
    cases rest with
    | nil =>
      show findCI pat [] = some 0
      rw [findCI, if_pos hyes]
    | cons c cs =>
      show findCI pat (c :: cs) = some 0
      rw [findCI, if_pos hyes]
  | x :: p', rest, hno, hyes => by
    show findCI pat (x :: (p' ++ rest)) = some (p'.length + 1)
    have hx : ciPref pat ((x :: p') ++ rest) = false :=
      hno (x :: p') ((List.mem_tails _ _).mpr (List.suffix_refl _)) (by simp)
    rw [show (x :: p') ++ rest = x :: (p' ++ rest) from rfl] at hx
    rw [findCI, if_neg (by simp [hx])]
    rw [findCI_append pat p' rest (fun r hr hne => hno r
      (by rw [List.tails_cons]; exact List.mem_cons_of_mem _ hr) hne) hyes]
    rfl

theorem lower_shape_open (t1 : Str) (h : lower t1 = openL) :
    ∃ a r, t1 = a :: r ∧ pyLower a = '<' ∧ t1.length = 5 := by
  cases t1 with
  | nil => exact absurd h (by decide)
  | cons a r =>
    have hlen : (a :: r).length = 5 := by
      have h2 := congrArg List.length h
      simp only [lower, List.length_map] at h2
      rw [h2]
      decide
    refine ⟨a, r, rfl, ?_, hlen⟩
    rw [show openL = '<' :: lit "xml>" from by decide] at h
    have h3 : pyLower a :: lower r = '<' :: lit "xml>" := h
    injection h3 with h1 _

theorem lower_shape_close (t2 : Str) (h : lower t2 = closeL) :
    ∃ w z, t2 = w ++ [z] ∧ pyLower z = '>' ∧ t2.length = 6 := by
  have hrev : lower t2.reverse = closeL.reverse := by
    show t2.reverse.map pyLower = closeL.reverse
    rw [List.map_reverse]
    show (lower t2).reverse = closeL.reverse
    rw [h]
  cases hrx : t2.reverse with
  | nil =>
    exfalso
    have : t2 = [] := by
      have := congrArg List.reverse hrx
      simpa using this
    subst this
    exact absurd h (by decide)
  | cons z w =>
    have ht2 : t2 = w.reverse ++ [z] := by
      have := congrArg List.reverse hrx
      simpa using this
    have hlen : t2.length = 6 := by
      have h2 := congrArg List.length h
      simp only [lower, List.length_map] at h2
      rw [h2]
      decide
    refine ⟨w.reverse, z, ht2, ?_, hlen⟩
    rw [hrx] at hrev
    rw [show closeL.reverse = '>' :: lit "lmx/<" from by decide] at hrev
    have h3 : pyLower z :: lower w = '>' :: lit "lmx/<" := hrev
    injection h3 with h1 _

theorem isSpace_false_of_pyLower (ch target : Char) (h : pyLower ch = target)
    (ht : isSpace target = false) : isSpace ch = false := by
  rw [← isSpace_pyLower, h, ht]

theorem dropWhile_lower : ∀ s : Str,
    (lower s).dropWhile isSpace = lower (s.dropWhile isSpace)
  | [] => rfl
  | c :: cs => by
    show (pyLower c :: lower cs).dropWhile isSpace = lower ((c :: cs).dropWhile isSpace)
    rw [List.dropWhile_cons, List.dropWhile_cons, isSpace_pyLower]
    cases h : isSpace c with
    | true => simp [dropWhile_lower cs]
    | false => simp [lower]

theorem strip_lower (s : Str) : strip (lower s) = lower (strip s) := by
  unfold strip
  rw [dropWhile_lower]
  have h1 : (lower (s.dropWhile isSpace)).reverse = lower ((s.dropWhile isSpace).reverse) := by
    show ((s.dropWhile isSpace).map pyLower).reverse = _
    rw [List.reverse_map]
    rfl
  rw [h1, dropWhile_lower]
  show (((s.dropWhile isSpace).reverse.dropWhile isSpace).map pyLower).reverse = _
  rw [List.reverse_map]
  rfl

theorem splitComma_lower : ∀ s : Str, splitComma (lower s) = (splitComma s).map lower
  | [] => rfl
  | c :: rest => by
    show splitComma (pyLower c :: lower rest) = _
    rw [splitComma]
    rw [splitComma_lower rest]
    cases h : splitComma rest with
    | nil => exact absurd h (splitComma_ne_nil rest)
    | cons g gs =>
      by_cases hc : c = ','
      · subst hc
        rw [show pyLower ',' = ',' from by decide]
        simp [splitComma, h, lower]
      · have hpc : pyLower c ≠ ',' := fun hh => hc ((pyLower_comma_iff c).mp hh)
        simp only [List.map_cons, if_neg hpc]
        rw [splitComma, h]
        simp [hc, lower]

theorem tokensOf_lower_eq (c1 c2 : Str) (h : lower c1 = lower c2) :
    tokensOf c1 = tokensOf c2 := by
  have key : ∀ c : Str, tokensOf c = (splitComma (lower c)).map strip := by
    intro c
    rw [tokensOf, splitComma_lower, List.map_map]
    apply List.map_congr_left
    intro p _
    show lower (strip p) = strip (lower p)
    rw [strip_lower]
  rw [key c1, key c2, h]

theorem parse_inner_lower_eq (c1 c2 : Str) (h : lower c1 = lower c2) :
    parse_inner c1 = parse_inner c2 := by
  have hlen : c1.length = c2.length := by
    have h2 := congrArg List.length h
    simpa [lower] using h2
  have hnil : c1 = [] ↔ c2 = [] := by
    rw [← List.length_eq_zero, ← List.length_eq_zero, hlen]
  by_cases h1 : c1 = []
  · rw [parse_inner, if_pos h1, parse_inner, if_pos (hnil.mp h1)]
  · rw [parse_inner, if_neg h1, parse_inner, if_neg (fun hh => h1 (hnil.mpr hh)),
      tokensOf_lower_eq c1 c2 h]

theorem strip_span_eq (t1 c t2 : Str) (h1 : lower t1 = openL) (h2 : lower t2 = closeL) :
    strip (t1 ++ (c ++ t2)) = t1 ++ (c ++ t2) := by
  obtain ⟨a, t1r, ht1, ha, -⟩ := lower_shape_open t1 h1
  obtain ⟨w, z, ht2, hz, -⟩ := lower_shape_close t2 h2
  rw [ht1, ht2]
  rw [show (a :: t1r) ++ (c ++ (w ++ [z])) = a :: ((t1r ++ (c ++ w)) ++ [z]) from by
    simp [List.append_assoc]]
  exact strip_of_ends a z _ (isSpace_false_of_pyLower a '<' ha (by decide))
    (isSpace_false_of_pyLower z '>' hz (by decide))

theorem extract_block (p t1 c t2 s : Str)
    (h1 : lower t1 = openL) (h2 : lower t2 = closeL)
    (hc : ∀ ch ∈ c, pyLower ch ≠ '<' ∧ pyLower ch ≠ '>')
    (hp : ∀ r ∈ p.tails, r ≠ [] → ciPref openL (r ++ (t1 ++ (c ++ (t2 ++ s)))) = false) :
    extract_xml_answer (p ++ (t1 ++ (c ++ (t2 ++ s)))) = some (t1 ++ (c ++ t2)) := by
  obtain ⟨a, t1r, ht1, ha, hlen1⟩ := lower_shape_open t1 h1
  obtain ⟨w, z, ht2, hz, hlen2⟩ := lower_shape_close t2 h2
  have hop : openL.length = 5 := by decide
  have hcl : closeL.length = 6 := by decide
  have hne : p ++ (t1 ++ (c ++ (t2 ++ s))) ≠ [] := by
    intro hh
    have h3 := congrArg List.length hh
    simp only [List.length_append, List.length_nil] at h3
    omega
  have hfind1 : findCI openL (p ++ (t1 ++ (c ++ (t2 ++ s)))) = some p.length :=
    findCI_append openL p _ hp (ciPref_of_lower t1 openL _ h1 (by decide))
  have hdrop1 : (p ++ (t1 ++ (c ++ (t2 ++ s)))).drop p.length = t1 ++ (c ++ (t2 ++ s)) :=
    List.drop_left p _
  have hdrop2 : (t1 ++ (c ++ (t2 ++ s))).drop openL.length = c ++ (t2 ++ s) :=
    List.drop_left' (by rw [hlen1, hop])
  have hno2 : ∀ r ∈ c.tails, r ≠ [] → ciPref closeL (r ++ (t2 ++ s)) = false := by
    intro r hr hne2
    cases r with
    | nil => exact absurd rfl hne2
    | cons ch r' =>
      have hch : ch ∈ c := by
        obtain ⟨q, hq⟩ := (List.mem_tails _ _).mp hr
        rw [← hq]
        exact List.mem_append_right _ (List.mem_cons_self _ _)
      rw [show closeL = '<' :: lit "/xml>" from by decide]
      rw [show (ch :: r') ++ (t2 ++ s) = ch :: (r' ++ (t2 ++ s)) from rfl]
      rw [ciPref]
      have hce : ciEq '<' ch = false := by
        rw [ciEq, show pyLower '<' = '<' from by decide]
        exact beq_eq_false_iff_ne.mpr (Ne.symm (hc ch hch).1)
      rw [hce]
      rfl
  have hfind2 : findCI closeL (c ++ (t2 ++ s)) = some c.length :=
    findCI_append closeL c _ hno2 (ciPref_of_lower t2 closeL s h2 (by decide))
  have htake : (t1 ++ (c ++ (t2 ++ s))).take (openL.length + c.length + closeL.length)
      = t1 ++ (c ++ t2) := by
    rw [show t1 ++ (c ++ (t2 ++ s)) = (t1 ++ (c ++ t2)) ++ s from by
      simp [List.append_assoc]]
    exact List.take_left' (by simp only [List.length_append]; omega)
  rw [extract_xml_answer, if_neg hne]
  simp only [hfind1, hdrop1, hdrop2, hfind2, htake]
  rw [strip_span_eq t1 c t2 h1 h2]

/-- Claim C7 counterexample: both inputs contain the well-formed block
`<xml>pii</xml>`, yet adding the surrounding prose `<xml>none</xml> ` (which
itself contains an answer-block delimiter) changes the normalized label set
from `{pii}` to the empty set, so invariance under arbitrary surrounding
prose fails. -/
theorem prose_invariance_counterexample :
    normalizeLabels (lit "<xml>pii</xml>") = [lit "pii"] ∧
      normalizeLabels (lit "<xml>none</xml> <xml>pii</xml>") = [] := by
  constructor
  · decide
  · decide

/-- Claim C7 (amended): for a raw response consisting of a well-formed answer
block (case-arbitrary tags, inner content free of angle brackets) surrounded
by prose, the normalized label set equals the parse of the inner content alone
provided the leading prose introduces no earlier case-insensitive occurrence
of the opening delimiter; trailing prose is unrestricted; normalization of
inner content is case-insensitive; and the two concrete example blocks yield
the identical set `{credentials, pii}`. -/
theorem normalize_invariance_amended :
    (∀ p t1 c t2 s : Str, lower t1 = openL → lower t2 = closeL →
      (∀ ch ∈ c, pyLower ch ≠ '<' ∧ pyLower ch ≠ '>') →
      (∀ r ∈ p.tails, r ≠ [] → ciPref openL (r ++ (t1 ++ (c ++ (t2 ++ s)))) = false) →
      normalizeLabels (p ++ (t1 ++ (c ++ (t2 ++ s)))) = parse_inner (strip c)) ∧
    (∀ c1 c2 : Str, lower c1 = lower c2 → parse_inner c1 = parse_inner c2) ∧
    setEq (pySet (normalizeLabels (lit "<xml>credentials,pii</xml>")))
      (pySet (normalizeLabels (lit "<xml>PII, Credentials</xml>"))) = true ∧
    normalizeLabels (lit "<xml>credentials,pii</xml>") = [lit "credentials", lit "pii"] := by
  refine ⟨?_, parse_inner_lower_eq, by decide, by decide⟩
  intro p t1 c t2 s h1 h2 hc hp
  have hext := extract_block p t1 c t2 s h1 h2 hc hp
  have hspanne : t1 ++ (c ++ t2) ≠ [] := by
    obtain ⟨a, t1r, ht1, -, -⟩ := lower_shape_open t1 h1
    rw [ht1]
    simp
  have hsan : sanitize_xml (some (t1 ++ (c ++ t2))) = some (t1 ++ (c ++ t2)) := by
    show (if t1 ++ (c ++ t2) = [] then none else _) = _
    rw [if_neg hspanne]
    have hl : lower (t1 ++ (c ++ t2)) = openL ++ (lower c ++ closeL) := by
      rw [lower_append, lower_append, h1, h2]
    have hcond : (openL.isPrefixOf (lower (strip (t1 ++ (c ++ t2)))) &&
        closeL.isSuffixOf (lower (strip (t1 ++ (c ++ t2))))) = true := by
      rw [strip_span_eq t1 c t2 h1 h2, Bool.and_eq_true]
      constructor
      · rw [hl, List.isPrefixOf_iff_prefix]
        exact List.prefix_append _ _
      · rw [hl, List.isSuffixOf_iff_suffix,
          show openL ++ (lower c ++ closeL) = (openL ++ lower c) ++ closeL from by
            simp [List.append_assoc]]
        exact List.suffix_append _ _
    rw [hcond]
    simp [strip_span_eq t1 c t2 h1 h2]
  have hctx : contentToXml (p ++ (t1 ++ (c ++ (t2 ++ s)))) = some (t1 ++ (c ++ t2)) := by
    rw [contentToXml, hext, hsan]
    show (if t1 ++ (c ++ t2) = [] then _ else some (t1 ++ (c ++ t2))) = _
    rw [if_neg hspanne]
  rw [normalizeLabels]
  simp only [hctx]
  rw [parse_labels_from_xml, strip_span_eq t1 c t2 h1 h2]
  obtain ⟨a, t1r, ht1, ha, hlen1⟩ := lower_shape_open t1 h1
  obtain ⟨w, z, ht2, hz, hlen2⟩ := lower_shape_close t2 h2
  have hslice : pySlice (t1 ++ (c ++ t2)) = c := by
    rw [pySlice]
    have hdrop : (t1 ++ (c ++ t2)).drop 5 = c ++ t2 := List.drop_left' hlen1
    have hlen' : (t1 ++ (c ++ t2)).length - 11 = c.length := by
      simp only [List.length_append]
      omega
    rw [hdrop, hlen', List.take_left]
  rw [hslice]

/-- Claim C7 witness: the amended invariance applied at concrete prose, a
mixed-case block, and trailing text. -/
theorem normalize_invariance_amended_witness :
    normalizeLabels (lit "Answer: " ++ (lit "<XML>" ++ (lit "pii" ++
        (lit "</xml>" ++ lit " thanks")))) = parse_inner (strip (lit "pii")) :=
  normalize_invariance_amended.1 (lit "Answer: ") (lit "<XML>") (lit "pii")
    (lit "</xml>") (lit " thanks") (by decide) (by decide) (by decide) (by decide)

end LLMSecDB
